import Mathlib

/-!
Verification of the HIDrem transport layer (`com.py`, `HIDremServer.py`).

Bytes are modelled as `Nat`, byte strings as `List Nat`, and Python 2 text
strings (which are byte strings) as `List Char`.  Each definition is a direct
translation of the corresponding Python function; line numbers refer to the
repository sources.
-/

namespace HIDrem

/-! ### Framing codec: `com.LengthPrefixedReceiver` (com.py lines 77-130)

`PREFIX_FORMAT = "!I"` is a 4-byte big-endian unsigned int, so
`PREFIX_LENGTH = struct.calcsize("!I") = 4`. -/

/-- the length of the length header: `struct.calcsize("!I")` (com.py line 13). -/
def headerLen : Nat := 4

/-- the two receive states `RSTATE_PREFIX` / `RSTATE_BODY` (com.py lines 15-16).
The `else: raise RuntimeError` arm of `feed` is unreachable because this type
has exactly these two constructors. -/
inductive RState where
  | waitingLen
  | waitingBody
deriving DecidableEq

/-- receiver state of a `LengthPrefixedReceiver`: `_recv_state`, `_buffer`
and `_to_recv` (com.py lines 89-93). -/
structure Receiver where
  rstate : RState
  buffer : List Nat
  toRecv : Nat
deriving DecidableEq

/-- `reset_receive` (com.py lines 89-93), which is also the state set up by
`__init__`. -/
def initReceiver : Receiver := ⟨RState.waitingLen, [], headerLen⟩

/-- `struct.unpack("!I", buffer)[0]` on a 4-byte buffer (com.py line 105).
`struct.unpack` demands exactly 4 bytes; every call site in `feed` passes a
4-byte buffer, so the default arm is unreachable. -/
def unpack4 : List Nat → Nat
  | [a, b, c, d] => ((a * 256 + b) * 256 + c) * 256 + d
  | _ => 0

/-- `struct.pack("!I", n)` (com.py line 128): the 4-byte big-endian encoding
of `n` (well-defined for `n < 2^32`; Python raises beyond that). -/
def pack4 (n : Nat) : List Nat :=
  [n / 16777216 % 256, n / 65536 % 256, n / 256 % 256, n % 256]

/-- `LengthPrefixedReceiver.send_message` (com.py lines 125-130): the frame
handed to the manager, a 4-byte big-endian length followed by the payload. -/
def encodeMsg (msg : List Nat) : List Nat := pack4 msg.length ++ msg

/-- the `while len(data) > 0` loop of `LengthPrefixedReceiver.feed`
(com.py lines 95-119), with an explicit fuel argument for termination.
Every state reachable from `initReceiver` has `1 ≤ toRecv`, so each loop
iteration consumes at least one byte and fuel `data.length + 1` (as used by
`feed` below) is always sufficient.  Returns the final receiver state and the
list of `got_message` payloads, in call order. -/
def feedAux : Nat → Receiver → List Nat → Receiver × List (List Nat)
  | 0, r, _ => (r, [])
  | _ + 1, r, [] => (r, [])
  | fuel + 1, r, d :: ds =>
    let data := d :: ds
    let buf := r.buffer ++ data.take (min r.toRecv data.length)
    if r.toRecv > data.length then
      (⟨r.rstate, buf, r.toRecv - data.length⟩, [])
    else
      let rest := data.drop r.toRecv
      match r.rstate with
      | RState.waitingLen =>
        let n := unpack4 buf
        if n > 0 then
          feedAux fuel ⟨RState.waitingBody, [], n⟩ rest
        else
          feedAux fuel ⟨RState.waitingLen, [], headerLen⟩ rest
      | RState.waitingBody =>
        let res := feedAux fuel ⟨RState.waitingLen, [], headerLen⟩ rest
        (res.1, buf :: res.2)

/-- `LengthPrefixedReceiver.feed` (com.py lines 95-119). -/
def feed (r : Receiver) (data : List Nat) : Receiver × List (List Nat) :=
  feedAux (data.length + 1) r data

/-- successive calls to `feed`, one per received chunk, concatenating the
`got_message` payloads. -/
def feedChunks : Receiver → List (List Nat) → Receiver × List (List Nat)
  | r, [] => (r, [])
  | r, c :: cs =>
    let p := feed r c
    let q := feedChunks p.1 cs
    (q.1, p.2 ++ q.2)

/-- invariant of the receive state machine: the outstanding byte count is
positive, and while awaiting the prefix the accumulated bytes plus the
outstanding count total exactly the 4 header bytes. -/
def recvInv (r : Receiver) : Prop :=
  1 ≤ r.toRecv ∧ (r.rstate = RState.waitingLen → r.buffer.length + r.toRecv = headerLen)

/-! ### Connection manager registries (com.py lines 141-153)

Sockets and protocol instances are identified by numeric ids.  Python dicts
keyed by sockets are modelled as association lists with dict-style update
semantics. -/

/-- association-list lookup, modelling Python dict indexing `d[k]`. -/
def lookupA {α : Type} : List (Nat × α) → Nat → Option α
  | [], _ => none
  | (k', v) :: rest, k => if k' = k then some v else lookupA rest k

/-- association-list update, modelling Python dict assignment `d[k] = v`. -/
def insertA {α : Type} : List (Nat × α) → Nat → α → List (Nat × α)
  | [], k, v => [(k, v)]
  | (k', v') :: rest, k, v =>
    if k' = k then (k, v) :: rest else (k', v') :: insertA rest k v

/-- association-list deletion, modelling Python `del d[k]`. -/
def eraseA {α : Type} : List (Nat × α) → Nat → List (Nat × α)
  | [], _ => []
  | (k', v) :: rest, k => if k' = k then eraseA rest k else (k', v) :: eraseA rest k

/-- the keys of a registry. -/
def keysOf {α : Type} (l : List (Nat × α)) : List Nat := l.map Prod.fst

/-- the registries of a `ConnectionManager` (com.py lines 150-152):
`listen_s` (listening sockets; the protocol factory is irrelevant here),
`s2r` (socket to protocol instance) and `s2w` (socket to queued outbound
bytes). -/
structure MState where
  listenS : List Nat
  s2r : List (Nat × Nat)
  s2w : List (Nat × List Nat)
deriving DecidableEq

/-- registration of a new connection: `self.s2r[s] = pi; self.s2w[s] = ""`,
performed both by `connect` (com.py lines 178-181) and when accepting an
inbound connection in the loop (com.py lines 245-248). -/
def registerConn (st : MState) (s pid : Nat) : MState :=
  { st with s2r := insertA st.s2r s pid, s2w := insertA st.s2w s [] }

/-- deregistration of a connection: `del self.s2r[s]; del self.s2w[s]`, as done
on the error path (com.py lines 229-232), on peer close (lines 265-268) and by
`close` (lines 315-316). -/
def deregConn (st : MState) (s : Nat) : MState :=
  { st with s2r := eraseA st.s2r s, s2w := eraseA st.s2w s }

/-- `ConnectionManager.close` (com.py lines 297-317): find the first socket
whose protocol is the given instance; raise `ValueError` if there is none,
otherwise deregister that socket (after `on_close(False)`, which has no
registry effect). -/
def mClose (st : MState) (p : Nat) : Except Unit MState :=
  match st.s2r.find? (fun e => e.2 == p) with
  | none => Except.error ()
  | some e => Except.ok (deregConn st e.1)

/-- `ConnectionManager.send_message` (com.py lines 291-295):
`self.s2w[target] += message` (a `KeyError` if the target is unregistered). -/
def sendMessage (st : MState) (target : Nat) (message : List Nat) : Except Unit MState :=
  match lookupA st.s2w target with
  | none => Except.error ()
  | some buff => Except.ok { st with s2w := insertA st.s2w target (buff ++ message) }

/-- `max_write` (com.py line 145). -/
def maxWrite : Nat := 2048

/-- the writable-socket branch of the loop once the queue is known non-empty
(com.py lines 282-287): returns the bytes passed to `s.send` and the bytes
left queued.  Note the source's branches: a queue of length at least
`max_write` is sent whole, while a shorter queue is sliced at `max_write`
(which there is the whole queue as well). -/
def writeSplit (buff : List Nat) : List Nat × List Nat :=
  if buff.length ≥ maxWrite then (buff, [])
  else (buff.take maxWrite, buff.drop maxWrite)

/-! ### One iteration of the reactor loop (com.py lines 193-289) -/

/-- observable per-socket actions of one loop iteration. -/
inductive REvent where
  | closeListener (s : Nat)
  | onCloseErr (s : Nat)
  | onCloseEof (s : Nat)
  | acceptConn (s c : Nat)
  | recvCall (s : Nat)
  | feedCall (s : Nat) (data : List Nat)
  | sendCall (s : Nat) (data : List Nat)
deriving DecidableEq

/-- environment of one iteration: the sets returned by `select` and the
behaviour of the external calls.  `recvData s = none` models `s.recv` raising;
`some []` is an empty read (peer closed); `feedOk s = false` models an
uncaught exception escaping `proto.feed` (e.g. a handler fault such as
`HIDremServerProtocol.got_message` raising); `acceptSock l` is the socket
returned by `l.accept()`. -/
structure IterInput where
  he : List Nat
  tr : List Nat
  tw : List Nat
  recvData : Nat → Option (List Nat)
  feedOk : Nat → Bool
  acceptSock : Nat → Nat

/-- result of a socket-processing pass: final registries, the events in order,
and whether an uncaught exception aborted the pass. -/
structure IterRes where
  st : MState
  evs : List REvent
  crashed : Bool
deriving DecidableEq

/-- left-to-right processing of a socket list, stopping at the first uncaught
exception — which in the source propagates out of `run` and kills the loop. -/
def foldIter (f : MState → Nat → IterRes) : MState → List Nat → IterRes
  | st, [] => ⟨st, [], false⟩
  | st, s :: rest =>
    let r := f st s
    if r.crashed then ⟨r.st, r.evs, true⟩
    else
      let r2 := foldIter f r.st rest
      ⟨r2.st, r.evs ++ r2.evs, r2.crashed⟩

/-- the error-socket pass `for s in he:` (com.py lines 213-232): a listener is
closed and dropped from `listen_s`; a connection has `on_close(True)` invoked
and is deregistered from both registries.  A socket in neither registry raises
`KeyError` at `self.s2r[s]` (line 226). -/
def procHe (st : MState) (s : Nat) : IterRes :=
  if s ∈ st.listenS then
    ⟨{ st with listenS := st.listenS.erase s }, [REvent.closeListener s], false⟩
  else
    match lookupA st.s2r s with
    | none => ⟨st, [], true⟩
    | some _ => ⟨deregConn st s, [REvent.onCloseErr s], false⟩

/-- the readable-socket pass `for s in tr:` (com.py lines 234-272): a listener
accepts and registers a fresh connection with an empty queue; a connection is
looked up (`KeyError` if deregistered) and read (`recv` may raise); an empty
read means the peer closed, so `on_close(False)` and deregistration; data is
fed to the protocol (`feed` may raise). -/
def procTr (inp : IterInput) (st : MState) (s : Nat) : IterRes :=
  if s ∈ st.listenS then
    ⟨registerConn st (inp.acceptSock s) (inp.acceptSock s),
      [REvent.acceptConn s (inp.acceptSock s)], false⟩
  else
    match lookupA st.s2r s with
    | none => ⟨st, [], true⟩
    | some _ =>
      match inp.recvData s with
      | none => ⟨st, [REvent.recvCall s], true⟩
      | some [] => ⟨deregConn st s, [REvent.recvCall s, REvent.onCloseEof s], false⟩
      | some (d :: ds) =>
        if inp.feedOk s then
          ⟨st, [REvent.recvCall s, REvent.feedCall s (d :: ds)], false⟩
        else ⟨st, [REvent.recvCall s], true⟩

/-- the writable-socket pass `for s in tw:` (com.py lines 273-289): an empty
queue is skipped; otherwise the queue is split by `writeSplit`, the first part
is sent and the second is left queued.  A deregistered socket raises
`KeyError` at `self.s2w[s]` (line 276). -/
def procTw (st : MState) (s : Nat) : IterRes :=
  match lookupA st.s2w s with
  | none => ⟨st, [], true⟩
  | some [] => ⟨st, [], false⟩
  | some (b :: bs) =>
    ⟨{ st with s2w := insertA st.s2w s (writeSplit (b :: bs)).2 },
      [REvent.sendCall s (writeSplit (b :: bs)).1], false⟩

/-- one iteration of the reactor loop body after `select` returned
`(tr, tw, he)`: the error pass runs first (com.py lines 213-232), then the
read pass (lines 234-272), then the write pass (lines 273-289); an uncaught
exception anywhere aborts the iteration and, in the source, the whole loop. -/
def runIteration (inp : IterInput) (st : MState) : IterRes :=
  let r1 := foldIter procHe st inp.he
  if r1.crashed then ⟨r1.st, r1.evs, true⟩
  else
    let r2 := foldIter (procTr inp) r1.st inp.tr
    if r2.crashed then ⟨r2.st, r1.evs ++ r2.evs, true⟩
    else
      let r3 := foldIter procTw r2.st inp.tw
      ⟨r3.st, r1.evs ++ (r2.evs ++ r3.evs), r3.crashed⟩

/-! ### listen and connect (com.py lines 155-184) -/

/-- `ConnectionManager.listen` (com.py lines 155-168): bind, register the
listener, then return `s.getsockname()[1]` — the OS-assigned port when the
requested port was 0, the requested port itself otherwise (`osAssigned` is
the port the OS picks for a bind to port 0). -/
def listenModel (st : MState) (ls requested osAssigned : Nat) : MState × Nat :=
  ({ st with listenS := st.listenS ++ [ls] },
    if requested = 0 then osAssigned else requested)

/-- the ordered steps of `ConnectionManager.connect` (com.py lines 170-184):
the blocking `s.connect(address)` happens first; on success the protocol
object is constructed — its `__init__` calls `setup()` (com.py lines 79-83) —
then the connection is registered, and only then does `connect` return.  On a
connect failure the exception propagates to the caller before any of the
later steps. -/
inductive ConnEvent where
  | tConnect
  | hSetup
  | hRegister
  | cReturn
deriving DecidableEq

/-- trace of one `connect` call: the transport connect, then (on success)
setup, registration and the return; on failure nothing after the transport
connect attempt. -/
def connectTrace (ok : Bool) : List ConnEvent :=
  if ok then [ConnEvent.tConnect, ConnEvent.hSetup, ConnEvent.hRegister, ConnEvent.cReturn]
  else [ConnEvent.tConnect]

/-- state and return value of `connect`: on success the new socket is
registered with an empty queue and the protocol instance is returned; a
transport failure surfaces as an exception to the caller. -/
def connectModel (st : MState) (s pid : Nat) (ok : Bool) : Except Unit (MState × Nat) :=
  if ok then Except.ok (registerConn st s pid, pid) else Except.error ()

/-! ### Server protocol handler (HIDremServer.py lines 11-38) -/

/-- Modelled from the spec: the message vocabulary constants `ID_PING`,
`ID_KEYBOARD`, `ID_MOUSE`, `ACTION_PRESS` and `ACTION_RELEASE` are defined in
`common.py`, which is not among the sources; the spec names the kinds and
actions but leaves the byte values open (`PING(0x?)` etc.), so the values are
carried as parameters here. -/
structure WireConsts where
  idPing : Nat
  idKeyboard : Nat
  idMouse : Nat
  actPress : Nat
  actRelease : Nat

/-- the effects a server-side `got_message` call can have: echoing a ping,
injecting a key press or release, or `self.close()` — which is
`manager.close(self)` and therefore releases only this one connection
(see `mClose`). -/
inductive SAction where
  | sendMsg (m : List Nat)
  | pressKey (k : List Nat)
  | releaseKey (k : List Nat)
  | closeConn
deriving DecidableEq

/-- `HIDremServerProtocol.got_message` (HIDremServer.py lines 17-38); `none`
models the uncaught `IndexError` of `msg[0]` on line 26 when a KEYBOARD
payload carries no action byte. -/
def serverGotMessage (w : WireConsts) (msg : List Nat) : Option (List SAction) :=
  match msg with
  | [] => some []
  | idb :: rest =>
    if idb = w.idPing then some [SAction.sendMsg (idb :: rest)]
    else if idb = w.idKeyboard then
      match rest with
      | [] => none
      | action :: keyname =>
        if action = w.actPress then some [SAction.pressKey keyname]
        else if action = w.actRelease then some [SAction.releaseKey keyname]
        else some [SAction.closeConn]
    else if idb = w.idMouse then some []
    else some [SAction.closeConn]

/-! ### UDP discovery (com.py lines 18-52)

Python 2 strings are byte strings; they are modelled as `List Char`. -/

/-- `BROADCAST_IDENTIFIER` (com.py line 18). -/
def bid : List Char := "HIDrem0:1".data

/-- the value of a base64 alphabet character (RFC 4648). -/
def b64val (c : Char) : Option Nat :=
  if 'A' ≤ c ∧ c ≤ 'Z' then some (c.toNat - 65)
  else if 'a' ≤ c ∧ c ≤ 'z' then some (c.toNat - 71)
  else if '0' ≤ c ∧ c ≤ '9' then some (c.toNat + 4)
  else if c = '+' then some 62
  else if c = '/' then some 63
  else none

/-- the next character accepted by binascii's base64 table (an alphabet
character or the pad); this is `binascii_find_valid`, which the pad handling
of `a2b_base64` uses to look ahead (the table maps `=` to a valid entry). -/
def b64findValid : List Char → Option Char
  | [] => none
  | c :: rest => if (b64val c).isSome || c == '=' then some c else b64findValid rest

/-- the character loop of Python 2's `binascii.a2b_base64`, which is what
`base64.b64decode` runs: `quadPos` counts accepted data characters mod 4,
`leftchar`/`leftbits` hold the pending bits, and a byte is emitted whenever 8
bits are available.  Characters outside the alphabet (whitespace included) are
skipped.  A pad before the third position of a quad is ignored; a pad at the
third position ends the input only when the next accepted character is another
pad, and is otherwise ignored; a pad at the fourth position always ends the
input; any pending bits at a terminating pad are discarded.  Input that runs
out with pending bits left is the incorrect-padding error (`none`). -/
def b64aux : List Char → Nat → Nat → Nat → Option (List Nat)
  | [], _, _, leftbits => if leftbits = 0 then some [] else none
  | c :: rest, quadPos, leftchar, leftbits =>
    if c == '=' then
      if quadPos < 2 then b64aux rest quadPos leftchar leftbits
      else if quadPos = 2 then
        match b64findValid rest with
        | some '=' => some []
        | _ => b64aux rest quadPos leftchar leftbits
      else some []
    else
      match b64val c with
      | none => b64aux rest quadPos leftchar leftbits
      | some v =>
        if leftbits + 6 ≥ 8 then
          match b64aux rest ((quadPos + 1) % 4)
              ((leftchar * 64 + v) % 2 ^ (leftbits + 6 - 8)) (leftbits + 6 - 8) with
          | none => none
          | some bs => some ((leftchar * 64 + v) / 2 ^ (leftbits + 6 - 8) % 256 :: bs)
        else b64aux rest ((quadPos + 1) % 4) (leftchar * 64 + v) (leftbits + 6)

/-- Python 2's `base64.b64decode` (com.py line 42). -/
def b64decode (s : List Char) : Option (List Char) :=
  match b64aux s 0 0 0 with
  | none => none
  | some bs => some (bs.map Char.ofNat)

/-- decimal digit value. -/
def digitVal (c : Char) : Option Nat :=
  if '0' ≤ c ∧ c ≤ '9' then some (c.toNat - 48) else none

/-- accumulating decimal parse. -/
def digitsVal : Nat → List Char → Option Nat
  | acc, [] => some acc
  | acc, c :: rest =>
    match digitVal c with
    | none => none
    | some d => digitsVal (acc * 10 + d) rest

/-- the whitespace characters Python's `int()` strips from both ends. -/
def isPySpace (c : Char) : Bool :=
  c == ' ' || c == '\t' || c == '\n' || c == '\r' || c == '\x0b' || c == '\x0c'

/-- strip of leading and trailing whitespace. -/
def stripPy (s : List Char) : List Char :=
  ((s.dropWhile isPySpace).reverse.dropWhile isPySpace).reverse

/-- Python 2's `int(text)` on the port field (com.py line 44): surrounding
whitespace is stripped, then an optional `+` or `-` sign is followed by at
least one decimal digit; anything else raises `ValueError`. -/
def parseInt (s : List Char) : Option Int :=
  match stripPy s with
  | '-' :: rest =>
    if rest.isEmpty then none else (digitsVal 0 rest).map (fun n => -(n : Int))
  | '+' :: rest =>
    if rest.isEmpty then none else (digitsVal 0 rest).map (fun n => (n : Int))
  | u =>
    if u.isEmpty then none else (digitsVal 0 u).map (fun n => (n : Int))

/-- Python's `data.replace(old, "", 1)` for a non-empty `old` (com.py line
39): remove the first occurrence, if any. -/
def replaceFirst (pat repl : List Char) : List Char → List Char
  | [] => []
  | c :: rest =>
    if pat.isPrefixOf (c :: rest) then repl ++ (c :: rest).drop pat.length
    else c :: replaceFirst pat repl rest

/-- Python's `data.split("|")` (com.py line 41), keeping empty fields. -/
def splitBar : List Char → List (List Char)
  | [] => [[]]
  | c :: rest =>
    if c = '|' then [] :: splitBar rest
    else
      match splitBar rest with
      | [] => [[c]]
      | g :: gs => (c :: g) :: gs

/-- one discovered advertisement tuple `(b64decode(hostfield), source_ip,
int(portfield), extra fields...)` (com.py lines 40-45).  Extra `|`-separated
fields beyond the third survive into the tuple unchanged, so they take part
in the dedup equality. -/
structure Adv where
  host : List Char
  ip : List Char
  port : Int
  extra : List (List Char)
deriving DecidableEq

/-- parse of one validly-prefixed datagram (com.py lines 39-45): strip the
first occurrence of `IDENTIFIER|`, split on `|`, base64-decode field 0,
overwrite field 1 with the datagram's source address, int-parse field 2;
`none` is an uncaught exception (a binascii error, an `IndexError` when there
are fewer than 3 fields, or a `ValueError` from `int`). -/
def parseAdv (data srcIp : List Char) : Option Adv :=
  let t := splitBar (replaceFirst (bid ++ ['|']) [] data)
  match b64decode (t.headD []) with
  | none => none
  | some h =>
    match t with
    | _ :: _ :: pstr :: extras =>
      match parseInt pstr with
      | none => none
      | some p => some ⟨h, srcIp, p, extras⟩
    | _ => none

/-- the body of `discover`'s receive loop for one datagram (com.py lines
36-47): traffic without the identifier is skipped; a parsed
advertisement is appended unless already present (`if tdata not in found`). -/
def processDatagram (found : List Adv) (data srcIp : List Char) :
    Option (List Adv) :=
  if bid.isPrefixOf data then
    match parseAdv data srcIp with
    | none => none
    | some a => some (if a ∈ found then found else found ++ [a])
  else some found

/-- `discover`'s receive loop over the datagrams arriving inside the search
window (com.py lines 29-47); `none` when an uncaught exception aborts
`discover`. -/
def discoverLoop : List Adv → List (List Char × List Char) → Option (List Adv)
  | found, [] => some found
  | found, (data, srcIp) :: rest =>
    match processDatagram found data srcIp with
    | none => none
    | some found' => discoverLoop found' rest

/-- a well-formed advertisement datagram with the given host, ip-text and
port fields. -/
def mkAdvert (h ipText p : List Char) : List Char :=
  bid ++ '|' :: (h ++ '|' :: (ipText ++ '|' :: p))

/-- the spec's discovery example: the advertisement
`HIDrem0:1|aG9zdA==|192.0.2.5|5026` broadcast once per second and received
three times during a three-second window. -/
def sampleDs : List (List Char × List Char) :=
  [("HIDrem0:1|aG9zdA==|192.0.2.5|5026".data, "192.0.2.5".data),
   ("HIDrem0:1|aG9zdA==|192.0.2.5|5026".data, "192.0.2.5".data),
   ("HIDrem0:1|aG9zdA==|192.0.2.5|5026".data, "192.0.2.5".data)]

/-! ### Helper lemmas for the framing codec -/

theorem feedAux_pos : ∀ (fuel : Nat) (r : Receiver) (data : List Nat),
    1 ≤ r.toRecv → 1 ≤ (feedAux fuel r data).1.toRecv := by
  intro fuel
  induction fuel with
  | zero => intro r data h; exact h
  | succ g ih =>
    intro r data h
    match data with
    | [] => exact h
    | d :: ds =>
      simp only [feedAux]
      by_cases hc : r.toRecv > (d :: ds).length
      · simp only [hc, if_true]
        simp only [List.length_cons] at hc ⊢
        omega
      · simp only [hc, if_false]
        cases hst : r.rstate with
        | waitingLen =>
          by_cases hn : unpack4 (r.buffer ++ (d :: ds).take (min r.toRecv (d :: ds).length)) > 0
          · simp only [hn, if_true]
            exact ih _ _ hn
          · simp only [hn, if_false]
            exact ih _ _ (by simp [headerLen])
        | waitingBody =>
          exact ih _ _ (by simp [headerLen])

theorem feedAux_fuel : ∀ (f₁ f₂ : Nat) (r : Receiver) (data : List Nat),
    1 ≤ r.toRecv → data.length < f₁ → data.length < f₂ →
    feedAux f₁ r data = feedAux f₂ r data := by
  intro f₁
  induction f₁ with
  | zero => intro f₂ r data _ h1 _; omega
  | succ g ih =>
    intro f₂ r data hr h1 h2
    match f₂, data with
    | f + 1, [] => rfl
    | f + 1, d :: ds =>
      obtain ⟨st, rbuf, rtr⟩ := r
      simp only [Receiver.toRecv] at hr
      simp only [feedAux]
      by_cases hc : rtr > (d :: ds).length
      · simp only [hc, if_true]
      · simp only [hc, if_false]
        simp only [List.length_cons] at h1 h2 hc
        have hrest : ((d :: ds).drop rtr).length < g ∧ ((d :: ds).drop rtr).length < f := by
          simp only [List.length_drop, List.length_cons]
          omega
        cases st with
        | waitingLen =>
          by_cases hn : unpack4 (rbuf ++ (d :: ds).take (min rtr (d :: ds).length)) > 0
          · simp only [hn, if_true]
            exact ih f _ _ hn hrest.1 hrest.2
          · simp only [hn, if_false]
            exact ih f _ _ (by simp [headerLen]) hrest.1 hrest.2
        | waitingBody =>
          rw [ih f ⟨RState.waitingLen, [], headerLen⟩ ((d :: ds).drop rtr)
            (by simp [headerLen]) hrest.1 hrest.2]

theorem feedAux_inv : ∀ (fuel : Nat) (r : Receiver) (data : List Nat),
    recvInv r → recvInv (feedAux fuel r data).1 := by
  intro fuel
  induction fuel with
  | zero => intro r data h; exact h
  | succ g ih =>
    intro r data h
    match data with
    | [] => exact h
    | d :: ds =>
      obtain ⟨st, rbuf, rtr⟩ := r
      obtain ⟨hpos, hsum⟩ := h
      simp only [Receiver.toRecv] at hpos
      simp only [Receiver.rstate, Receiver.buffer, Receiver.toRecv] at hsum
      simp only [feedAux]
      by_cases hc : rtr > (d :: ds).length
      · simp only [hc, if_true]
        constructor
        · simp only [Receiver.toRecv, List.length_cons]
          simp only [List.length_cons] at hc
          omega
        · intro hst
          simp only [Receiver.rstate] at hst
          have h4 := hsum hst
          simp only [Receiver.buffer, Receiver.toRecv, List.length_append, List.length_take,
            List.length_cons]
          simp only [List.length_cons] at hc h4
          omega
      · simp only [hc, if_false]
        cases st with
        | waitingLen =>
          by_cases hn : unpack4 (rbuf ++ (d :: ds).take (min rtr (d :: ds).length)) > 0
          · simp only [hn, if_true]
            exact ih _ _ ⟨hn, by intro hco; cases hco⟩
          · simp only [hn, if_false]
            exact ih _ _ ⟨by simp [headerLen], by intro _; simp [headerLen]⟩
        | waitingBody =>
          exact ih _ _ ⟨by simp [headerLen], by intro _; simp [headerLen]⟩

theorem feed_pos (r : Receiver) (data : List Nat) (h : 1 ≤ r.toRecv) :
    1 ≤ (feed r data).1.toRecv :=
  feedAux_pos _ r data h

theorem feed_inv (r : Receiver) (data : List Nat) (h : recvInv r) :
    recvInv (feed r data).1 :=
  feedAux_inv _ r data h

theorem feed_nil (r : Receiver) : feed r [] = (r, []) := rfl

theorem feed_partial (st : RState) (rbuf : List Nat) (rtr : Nat) (data : List Nat)
    (h : rtr > data.length) :
    feed ⟨st, rbuf, rtr⟩ data = (⟨st, rbuf ++ data, rtr - data.length⟩, []) := by
  cases data with
  | nil => simp [feed, feedAux]
  | cons d ds =>
    simp only [feed, feedAux]
    rw [if_pos (by simpa using h)]
    have hmin : min rtr (d :: ds).length = (d :: ds).length := by
      simp only [List.length_cons] at h ⊢
      omega
    rw [hmin, List.take_length]

theorem feed_trans_len (rbuf : List Nat) (rtr : Nat) (data : List Nat)
    (h1 : 1 ≤ rtr) (h2 : rtr ≤ data.length) :
    feed ⟨RState.waitingLen, rbuf, rtr⟩ data =
      if unpack4 (rbuf ++ data.take rtr) > 0 then
        feed ⟨RState.waitingBody, [], unpack4 (rbuf ++ data.take rtr)⟩ (data.drop rtr)
      else
        feed ⟨RState.waitingLen, [], headerLen⟩ (data.drop rtr) := by
  cases data with
  | nil => simp only [List.length_nil] at h2; omega
  | cons d ds =>
    simp only [feed, feedAux]
    rw [if_neg (by simp only [List.length_cons] at h2 ⊢; omega)]
    have hmin : min rtr (d :: ds).length = rtr := by
      simp only [List.length_cons] at h2 ⊢
      omega
    rw [hmin]
    have hlen : ((d :: ds).drop rtr).length < (d :: ds).length := by
      simp only [List.length_drop, List.length_cons]
      omega
    by_cases hn : unpack4 (rbuf ++ (d :: ds).take rtr) > 0
    · rw [if_pos hn, if_pos hn]
      exact feedAux_fuel _ _ _ _ hn (by simpa using hlen) (by omega)
    · rw [if_neg hn, if_neg hn]
      exact feedAux_fuel _ _ _ _ (by simp [headerLen]) (by simpa using hlen) (by omega)

theorem feed_trans_body (rbuf : List Nat) (rtr : Nat) (data : List Nat)
    (h1 : 1 ≤ rtr) (h2 : rtr ≤ data.length) :
    feed ⟨RState.waitingBody, rbuf, rtr⟩ data =
      ((feed initReceiver (data.drop rtr)).1,
        (rbuf ++ data.take rtr) :: (feed initReceiver (data.drop rtr)).2) := by
  cases data with
  | nil => simp only [List.length_nil] at h2; omega
  | cons d ds =>
    simp only [feed, feedAux]
    rw [if_neg (by simp only [List.length_cons] at h2 ⊢; omega)]
    have hmin : min rtr (d :: ds).length = rtr := by
      simp only [List.length_cons] at h2 ⊢
      omega
    rw [hmin]
    have hlen : ((d :: ds).drop rtr).length < (d :: ds).length := by
      simp only [List.length_drop, List.length_cons]
      omega
    rw [show (⟨RState.waitingLen, [], headerLen⟩ : Receiver) = initReceiver from rfl]
    rw [feedAux_fuel _ ((((d :: ds).drop rtr)).length + 1) initReceiver _
      (by simp [initReceiver, headerLen]) (by simpa using hlen) (by omega)]

theorem feed_append : ∀ (n : Nat) (a b : List Nat) (r : Receiver), a.length ≤ n → 1 ≤ r.toRecv →
    feed r (a ++ b) = ((feed (feed r a).1 b).1, (feed r a).2 ++ (feed (feed r a).1 b).2) := by
  intro n
  induction n with
  | zero =>
    intro a b r ha _
    have hnil : a = [] := List.eq_nil_of_length_eq_zero (by omega)
    subst hnil
    simp [feed_nil]
  | succ n ih =>
    intro a b r ha hr
    rcases a with _ | ⟨y, a2⟩
    · simp [feed_nil]
    obtain ⟨st, rbuf, rtr⟩ := r
    simp only [Receiver.toRecv] at hr
    by_cases hA : rtr > (y :: a2).length + b.length
    · have e1 := feed_partial st rbuf rtr ((y :: a2) ++ b)
        (by simp only [List.length_append]; omega)
      have e2 := feed_partial st rbuf rtr (y :: a2) (by omega)
      have e3 := feed_partial st (rbuf ++ (y :: a2)) (rtr - (y :: a2).length) b (by omega)
      rw [e1, e2]
      dsimp only
      rw [e3]
      simp [List.append_assoc, List.length_append, Nat.sub_sub]
      omega
    · by_cases hB : rtr ≤ (y :: a2).length
      · cases st with
        | waitingLen =>
          have e1 := feed_trans_len rbuf rtr ((y :: a2) ++ b)
            hr (by simp only [List.length_append]; omega)
          have e2 := feed_trans_len rbuf rtr (y :: a2) hr hB
          rw [List.take_append_of_le_length hB, List.drop_append_of_le_length hB] at e1
          rw [e1, e2]
          by_cases hn : unpack4 (rbuf ++ (y :: a2).take rtr) > 0
          · rw [if_pos hn, if_pos hn]
            exact ih ((y :: a2).drop rtr) b _ (by simp only [List.length_drop]; omega) hn
          · rw [if_neg hn, if_neg hn]
            exact ih ((y :: a2).drop rtr) b _ (by simp only [List.length_drop]; omega)
              (by simp [headerLen])

        | waitingBody =>
          have e1 := feed_trans_body rbuf rtr ((y :: a2) ++ b)
            hr (by simp only [List.length_append]; omega)
          have e2 := feed_trans_body rbuf rtr (y :: a2) hr hB
          rw [List.take_append_of_le_length hB, List.drop_append_of_le_length hB] at e1
          rw [e1, e2]
          dsimp only
          rw [ih ((y :: a2).drop rtr) b initReceiver (by simp only [List.length_drop]; omega)
            (by simp [initReceiver, headerLen])]
          simp
      · push_neg at hA hB
        have htake : ((y :: a2) ++ b).take rtr = (y :: a2) ++ b.take (rtr - (y :: a2).length) := by
          rw [List.take_append_eq_append_take, List.take_of_length_le (by omega)]
        have hdrop : ((y :: a2) ++ b).drop rtr = b.drop (rtr - (y :: a2).length) := by
          rw [List.drop_append_eq_append_drop, List.drop_eq_nil_of_le (by omega), List.nil_append]
        have e2 := feed_partial st rbuf rtr (y :: a2) (by omega)
        cases st with
        | waitingLen =>
          have e1 := feed_trans_len rbuf rtr ((y :: a2) ++ b)
            hr (by simp only [List.length_append]; omega)
          rw [htake, hdrop] at e1
          have e3 := feed_trans_len (rbuf ++ (y :: a2)) (rtr - (y :: a2).length) b
            (by omega) (by omega)
          simp only [List.append_assoc] at e3
          rw [e1, e2]
          dsimp only
          rw [e3]
          by_cases hn : unpack4 (rbuf ++ (y :: a2 ++ b.take (rtr - (y :: a2).length))) > 0
          · rw [if_pos hn]
            simp
          · rw [if_neg hn]
            simp
        | waitingBody =>
          have e1 := feed_trans_body rbuf rtr ((y :: a2) ++ b)
            hr (by simp only [List.length_append]; omega)
          rw [htake, hdrop] at e1
          have e3 := feed_trans_body (rbuf ++ (y :: a2)) (rtr - (y :: a2).length) b
            (by omega) (by omega)
          simp only [List.append_assoc] at e3
          rw [e1, e2]
          dsimp only
          rw [e3]
          simp

theorem feedChunks_flatten : ∀ (cs : List (List Nat)) (r : Receiver), 1 ≤ r.toRecv →
    feedChunks r cs = feed r cs.flatten := by
  intro cs
  induction cs with
  | nil => intro r _; rfl
  | cons c cs ih =>
    intro r hr
    simp only [feedChunks, List.flatten_cons]
    rw [ih (feed r c).1 (feed_pos r c hr)]
    rw [feed_append c.length c cs.flatten r (le_refl _) hr]

theorem unpack4_pack4 (n : Nat) (h : n < 4294967296) : unpack4 (pack4 n) = n := by
  simp only [pack4, unpack4]
  omega

theorem feed_encode (P : List Nat) (h1 : 1 ≤ P.length) (h2 : P.length < 4294967296) :
    feed initReceiver (encodeMsg P) = (initReceiver, [P]) := by
  have hlen : (pack4 P.length).length = 4 := rfl
  have happ := feed_append 4 (pack4 P.length) P initReceiver (by rw [hlen])
    (by simp [initReceiver, headerLen])
  have htk : (pack4 P.length).take 4 = pack4 P.length := by
    rw [← hlen, List.take_length]
  have hdp : (pack4 P.length).drop 4 = [] := by
    rw [← hlen, List.drop_length]
  have hhead : feed initReceiver (pack4 P.length) =
      (⟨RState.waitingBody, [], P.length⟩, []) := by
    have ht := feed_trans_len [] 4 (pack4 P.length) (by omega) (by rw [hlen])
    rw [List.nil_append, htk, hdp, unpack4_pack4 P.length h2] at ht
    rw [show initReceiver = (⟨RState.waitingLen, [], 4⟩ : Receiver) from rfl, ht,
      if_pos (by omega), feed_nil]
  have hbody : feed (⟨RState.waitingBody, [], P.length⟩ : Receiver) P = (initReceiver, [P]) := by
    have ht := feed_trans_body [] P.length P h1 (le_refl _)
    rw [List.drop_length, List.nil_append, List.take_length, feed_nil] at ht
    exact ht
  rw [show encodeMsg P = pack4 P.length ++ P from rfl, happ, hhead]
  dsimp only
  rw [hbody]
  simp

theorem feedChunks_inv : ∀ (cs : List (List Nat)) (r : Receiver),
    recvInv r → recvInv (feedChunks r cs).1 := by
  intro cs
  induction cs with
  | nil => intro r h; exact h
  | cons c cs ih => intro r h; exact ih (feed r c).1 (feed_inv r c h)

theorem recvInv_init : recvInv initReceiver :=
  ⟨by simp [initReceiver, headerLen], fun _ => by simp [initReceiver, headerLen]⟩

/-- C1 (amended): for every nonempty payload `P` with `P.length < 2^32`, feeding
the frame `encodeMsg P` produced by `send_message` into the receiver yields
exactly one `got_message` call whose argument equals `P` and returns the
receiver to its initial state, regardless of how the frame's bytes are split
into chunks across successive `feed` calls.  (The original claim also covered
the empty payload, which the code silently drops: see the counterexample.) -/
theorem c1_chunked_roundtrip (P : List Nat) (h1 : 1 ≤ P.length) (h2 : P.length < 4294967296)
    (chunks : List (List Nat)) (hc : chunks.flatten = encodeMsg P) :
    feedChunks initReceiver chunks = (initReceiver, [P]) := by
  rw [feedChunks_flatten chunks initReceiver (by simp [initReceiver, headerLen]), hc,
    feed_encode P h1 h2]

/-- C1 witness: the frame for payload `[7]` is `[0,0,0,1,7]`; fed as the two
chunks `[0,0]` and `[0,1,7]` it yields exactly the one message `[7]`. -/
theorem c1_chunked_roundtrip_witness :
    feedChunks initReceiver [[0, 0], [0, 1, 7]] = (initReceiver, [[7]]) :=
  c1_chunked_roundtrip [7] (by decide) (by decide) [[0, 0], [0, 1, 7]] (by decide)

/-- C1 counterexample: the claim as stated also covers the empty payload, whose
encoding is the 4 zero bytes; feeding that encoding produces NO `got_message`
call at all (the message list is `[]`, not the required single empty message). -/
theorem c1_empty_payload_counterexample :
    encodeMsg [] = [0, 0, 0, 0] ∧ (feedChunks initReceiver [[0, 0, 0, 0]]).2 = [] := by
  constructor
  · decide
  · decide

/-- C4 counterexample: feeding the 4-byte zero length prefix does not yield a
`got_message` call with the empty message — no call happens at all, because
`feed` only resets its state when the decoded length is 0 (com.py lines
109-111) and never invokes `got_message` there. -/
theorem c4_zero_frame_counterexample :
    ¬ (feed initReceiver [0, 0, 0, 0]).2 = [[]] := by
  decide

/-- C4 (amended): a frame with declared payload length 0 is consumed without
blocking — the receiver returns directly to its initial prefix-awaiting state,
and a following frame still decodes normally — but the empty message is
silently dropped: `got_message` is not invoked for it. -/
theorem c4_zero_frame_dropped :
    feed initReceiver [0, 0, 0, 0] = (initReceiver, []) ∧
    feed initReceiver ([0, 0, 0, 0] ++ encodeMsg [9]) = (initReceiver, [[9]]) := by
  constructor
  · decide
  · decide

/-- C5 counterexample: after feeding 3 bytes of a length prefix the
accumulation buffer holds 3 bytes while `_to_recv` is 1, so the buffer exceeds
the currently required count. -/
theorem c5_buffer_exceeds_to_recv :
    (feed initReceiver [97, 98, 99]).1.toRecv
      < (feed initReceiver [97, 98, 99]).1.buffer.length := by
  decide

/-- C5 (amended): after any sequence of `feed` calls the required byte count
`_to_recv` is a definite positive integer and the state is one of the two
assembly states; in the prefix state the buffer and the outstanding count
together total exactly the 4 header bytes (so the buffer length can exceed
`_to_recv` itself, but never the phase's total requirement). -/
theorem c5_receiver_invariant (chunks : List (List Nat)) :
    1 ≤ (feedChunks initReceiver chunks).1.toRecv ∧
    ((feedChunks initReceiver chunks).1.rstate = RState.waitingLen ∨
      (feedChunks initReceiver chunks).1.rstate = RState.waitingBody) ∧
    ((feedChunks initReceiver chunks).1.rstate = RState.waitingLen →
      (feedChunks initReceiver chunks).1.buffer.length
        + (feedChunks initReceiver chunks).1.toRecv = headerLen) := by
  have hinv := feedChunks_inv chunks initReceiver recvInv_init
  refine ⟨hinv.1, ?_, hinv.2⟩
  cases (feedChunks initReceiver chunks).1.rstate
  · exact Or.inl rfl
  · exact Or.inr rfl

/-! ### Registry lemmas, the write path (C2) and registry invariants (C9) -/

theorem keysOf_insertA {α : Type} (l : List (Nat × α)) (k : Nat) (v : α) :
    keysOf (insertA l k v) = if k ∈ keysOf l then keysOf l else keysOf l ++ [k] := by
  induction l with
  | nil => simp [insertA, keysOf]
  | cons e rest ih =>
    obtain ⟨k', v'⟩ := e
    by_cases h : k' = k
    · subst h
      simp [insertA, keysOf]
    · simp only [insertA, if_neg h, keysOf, List.map_cons] at ih ⊢
      rw [ih]
      by_cases hm : k ∈ List.map Prod.fst rest
      · rw [if_pos hm, if_pos (by simp [List.mem_cons, hm])]
      · rw [if_neg hm, if_neg ?_]
        · simp
        · simp only [List.mem_cons]
          rintro (h1 | h2)
          · exact h h1.symm
          · exact hm h2

theorem keysOf_eraseA {α : Type} (l : List (Nat × α)) (k : Nat) :
    keysOf (eraseA l k) = (keysOf l).filter (fun x => x != k) := by
  induction l with
  | nil => rfl
  | cons e rest ih =>
    obtain ⟨k', v'⟩ := e
    by_cases h : k' = k
    · subst h
      simp only [eraseA, if_pos rfl, keysOf, List.map_cons, List.filter_cons,
        bne_self_eq_false, Bool.false_eq_true, if_false]
      simpa [keysOf] using ih
    · simp only [eraseA, if_neg h, keysOf, List.map_cons, List.filter_cons,
        show ((k' : Nat) != k) = true from by simp [h], if_true]
      rw [show List.map Prod.fst (eraseA rest k) = keysOf (eraseA rest k) from rfl, ih, keysOf]

theorem lookupA_eraseA {α : Type} (l : List (Nat × α)) (k x : Nat) :
    lookupA (eraseA l k) x = if x = k then none else lookupA l x := by
  induction l with
  | nil => simp [eraseA, lookupA]
  | cons e rest ih =>
    obtain ⟨k', v'⟩ := e
    by_cases hk : k' = k
    · subst hk
      rw [show eraseA ((k', v') :: rest) k' = eraseA rest k' from by simp [eraseA], ih]
      by_cases hx : x = k'
      · simp [hx]
      · simp only [if_neg hx, lookupA,
          if_neg (show ¬ k' = x from fun h => hx (Eq.symm h))]
    · rw [show eraseA ((k', v') :: rest) k = (k', v') :: eraseA rest k from by
        simp [eraseA, hk]]
      by_cases hx : k' = x
      · subst hx
        simp [lookupA, hk]
      · simp [lookupA, hx, ih]

theorem lookupA_insertA_ne {α : Type} (l : List (Nat × α)) (k x : Nat) (v : α)
    (h : ¬ k = x) :
    lookupA (insertA l k v) x = lookupA l x := by
  induction l with
  | nil => simp [insertA, lookupA, h]
  | cons e rest ih =>
    obtain ⟨k', v'⟩ := e
    by_cases hk : k' = k
    · subst hk
      simp [insertA, lookupA, h]
    · simp [insertA, lookupA, hk, ih]

theorem lookupA_insertA_self {α : Type} (l : List (Nat × α)) (k : Nat) (v : α) :
    lookupA (insertA l k v) k = some v := by
  induction l with
  | nil => simp [insertA, lookupA]
  | cons e rest ih =>
    obtain ⟨k', v'⟩ := e
    by_cases h : k' = k
    · subst h
      simp [insertA, lookupA]
    · simp [insertA, lookupA, h, ih]

/-- C2: evaluation of the write path at a concrete 4096-byte queue: the loop
passes the entire 4096-byte queue to a single `send` call and leaves nothing
queued, even though `max_write = 2048` — the length test on com.py line 282
has its branches inverted, so the at-most-`max_write` bound of the claim is
violated.  (What is sent followed by what remains is still exactly the
original queue, so no bytes are dropped or reordered.) -/
theorem c2_whole_buffer_sent :
    writeSplit (List.replicate 4096 0) = (List.replicate 4096 0, []) ∧
    (List.replicate 4096 0).length = 4096 ∧ maxWrite = 2048 := by
  refine ⟨?_, List.length_replicate 4096 0, rfl⟩
  rw [writeSplit, if_pos (by rw [List.length_replicate]; decide)]

/-- C9: the operations that mutate the registries — registration (shared by
`connect` and the accept path), deregistration (shared by the error path, the
peer-close path and `close`), and `close` itself including its not-registered
error case — preserve agreement of the socket key sets of `s2r` and `s2w`, and
a newly registered connection starts with an empty outbound queue. -/
theorem c9_registry_keys (st : MState) (s pid p : Nat)
    (h : keysOf st.s2r = keysOf st.s2w) :
    keysOf (registerConn st s pid).s2r = keysOf (registerConn st s pid).s2w ∧
    lookupA (registerConn st s pid).s2w s = some [] ∧
    keysOf (deregConn st s).s2r = keysOf (deregConn st s).s2w ∧
    (∀ st', mClose st p = Except.ok st' → keysOf st'.s2r = keysOf st'.s2w) := by
  refine ⟨?_, lookupA_insertA_self st.s2w s [], ?_, ?_⟩
  · simp only [registerConn, keysOf_insertA, h]
  · simp only [deregConn, keysOf_eraseA, h]
  · intro st' heq
    simp only [mClose] at heq
    cases hf : st.s2r.find? (fun e => e.2 == p) with
    | none => rw [hf] at heq; cases heq
    | some e =>
      rw [hf] at heq
      cases heq
      simp only [deregConn, keysOf_eraseA, h]

/-- C9 witness: a concrete one-connection state. -/
theorem c9_registry_keys_witness :
    keysOf (registerConn ⟨[], [(1, 11)], [(1, [])]⟩ 2 12).s2r
        = keysOf (registerConn ⟨[], [(1, 11)], [(1, [])]⟩ 2 12).s2w ∧
    lookupA (registerConn ⟨[], [(1, 11)], [(1, [])]⟩ 2 12).s2w 2 = some [] ∧
    keysOf (deregConn ⟨[], [(1, 11)], [(1, [])]⟩ 2).s2r
        = keysOf (deregConn ⟨[], [(1, 11)], [(1, [])]⟩ 2).s2w ∧
    (∀ st', mClose ⟨[], [(1, 11)], [(1, [])]⟩ 11 = Except.ok st' →
      keysOf st'.s2r = keysOf st'.s2w) :=
  c9_registry_keys ⟨[], [(1, 11)], [(1, [])]⟩ 2 12 11 (by decide)

/-! ### Reactor iteration lemmas (C3) -/

theorem hePhase_mono (he : List Nat) : ∀ (st : MState) (s : Nat),
    lookupA st.s2r s = none → lookupA st.s2w s = none → s ∉ st.listenS →
    lookupA (foldIter procHe st he).st.s2r s = none ∧
    lookupA (foldIter procHe st he).st.s2w s = none ∧
    s ∉ (foldIter procHe st he).st.listenS := by
  induction he with
  | nil => intro st s h1 h2 h3; exact ⟨h1, h2, h3⟩
  | cons x rest ih =>
    intro st s h1 h2 h3
    by_cases hl : x ∈ st.listenS
    · have hproc : procHe st x =
          ⟨{ st with listenS := st.listenS.erase x }, [REvent.closeListener x], false⟩ := by
        simp [procHe, hl]
      have hfold : foldIter procHe st (x :: rest) =
          ⟨(foldIter procHe { st with listenS := st.listenS.erase x } rest).st,
            [REvent.closeListener x]
              ++ (foldIter procHe { st with listenS := st.listenS.erase x } rest).evs,
            (foldIter procHe { st with listenS := st.listenS.erase x } rest).crashed⟩ := by
        simp [foldIter, hproc]
      rw [hfold]
      exact ih _ s h1 h2 (fun hmem => h3 (List.mem_of_mem_erase hmem))
    · cases hsome : lookupA st.s2r x with
      | none =>
        have hfold : foldIter procHe st (x :: rest) = ⟨st, [], true⟩ := by
          simp [foldIter, procHe, hl, hsome]
        rw [hfold]
        exact ⟨h1, h2, h3⟩
      | some pid =>
        have hproc : procHe st x = ⟨deregConn st x, [REvent.onCloseErr x], false⟩ := by
          simp [procHe, hl, hsome]
        have hfold : foldIter procHe st (x :: rest) =
            ⟨(foldIter procHe (deregConn st x) rest).st,
              [REvent.onCloseErr x] ++ (foldIter procHe (deregConn st x) rest).evs,
              (foldIter procHe (deregConn st x) rest).crashed⟩ := by
          simp [foldIter, hproc]
        rw [hfold]
        refine ih _ s ?_ ?_ h3
        · simp only [deregConn, lookupA_eraseA]
          split
          · rfl
          · exact h1
        · simp only [deregConn, lookupA_eraseA]
          split
          · rfl
          · exact h2

theorem hePhase (he : List Nat) : ∀ (st : MState),
    (∀ s ∈ he, s ∈ st.listenS ∨ ¬ lookupA st.s2r s = none) → he.Nodup →
    (foldIter procHe st he).crashed = false ∧
    (∀ e ∈ (foldIter procHe st he).evs,
      (∃ s, e = REvent.closeListener s) ∨ (∃ s, e = REvent.onCloseErr s)) ∧
    (∀ s ∈ he, s ∉ st.listenS →
      REvent.onCloseErr s ∈ (foldIter procHe st he).evs ∧
      lookupA (foldIter procHe st he).st.s2r s = none ∧
      lookupA (foldIter procHe st he).st.s2w s = none ∧
      s ∉ (foldIter procHe st he).st.listenS) := by
  induction he with
  | nil =>
    intro st _ _
    exact ⟨rfl, by simp [foldIter], by simp⟩
  | cons x rest ih =>
    intro st hreg hnd
    have hxrest : x ∉ rest := (List.nodup_cons.mp hnd).1
    have hnd' : rest.Nodup := (List.nodup_cons.mp hnd).2
    by_cases hl : x ∈ st.listenS
    · have hproc : procHe st x =
          ⟨{ st with listenS := st.listenS.erase x }, [REvent.closeListener x], false⟩ := by
        simp [procHe, hl]
      have hfold : foldIter procHe st (x :: rest) =
          ⟨(foldIter procHe { st with listenS := st.listenS.erase x } rest).st,
            [REvent.closeListener x]
              ++ (foldIter procHe { st with listenS := st.listenS.erase x } rest).evs,
            (foldIter procHe { st with listenS := st.listenS.erase x } rest).crashed⟩ := by
        simp [foldIter, hproc]
      have hreg' : ∀ s ∈ rest,
          s ∈ ({ st with listenS := st.listenS.erase x } : MState).listenS ∨
          ¬ lookupA ({ st with listenS := st.listenS.erase x } : MState).s2r s = none := by
        intro s hs
        rcases hreg s (List.mem_cons_of_mem _ hs) with h | h
        · exact Or.inl ((List.mem_erase_of_ne (by rintro rfl; exact hxrest hs)).mpr h)
        · exact Or.inr h
      obtain ⟨hcr, hsh, hrest⟩ := ih _ hreg' hnd'
      rw [hfold]
      refine ⟨hcr, ?_, ?_⟩
      · intro e hev
        rcases List.mem_append.mp hev with hev | hev
        · rcases List.mem_singleton.mp hev with rfl
          exact Or.inl ⟨x, rfl⟩
        · exact hsh e hev
      · intro s hs hsl
        rcases List.mem_cons.mp hs with rfl | hs'
        · exact absurd hl hsl
        · obtain ⟨h1, h2, h3, h4⟩ := hrest s hs'
            (fun hmem => hsl (List.mem_of_mem_erase hmem))
          exact ⟨List.mem_append.mpr (Or.inr h1), h2, h3, h4⟩
    · have hx := hreg x (List.mem_cons_self x rest)
      rcases hx with hx' | hx'
      · exact absurd hx' hl
      cases hsome : lookupA st.s2r x with
      | none => exact absurd hsome hx'
      | some pid =>
        have hproc : procHe st x = ⟨deregConn st x, [REvent.onCloseErr x], false⟩ := by
          simp [procHe, hl, hsome]
        have hfold : foldIter procHe st (x :: rest) =
            ⟨(foldIter procHe (deregConn st x) rest).st,
              [REvent.onCloseErr x] ++ (foldIter procHe (deregConn st x) rest).evs,
              (foldIter procHe (deregConn st x) rest).crashed⟩ := by
          simp [foldIter, hproc]
        have hreg' : ∀ s ∈ rest,
            s ∈ (deregConn st x).listenS ∨ ¬ lookupA (deregConn st x).s2r s = none := by
          intro s hs
          rcases hreg s (List.mem_cons_of_mem _ hs) with h | h
          · exact Or.inl h
          · refine Or.inr ?_
            have hne : ¬ s = x := by rintro rfl; exact hxrest hs
            simp only [deregConn, lookupA_eraseA, if_neg hne]
            exact h
        obtain ⟨hcr, hsh, hrest⟩ := ih _ hreg' hnd'
        rw [hfold]
        refine ⟨hcr, ?_, ?_⟩
        · intro e hev
          rcases List.mem_append.mp hev with hev | hev
          · rcases List.mem_singleton.mp hev with rfl
            exact Or.inr ⟨x, rfl⟩
          · exact hsh e hev
        · intro s hs hsl
          rcases List.mem_cons.mp hs with rfl | hs'
          · refine ⟨List.mem_append.mpr (Or.inl (List.mem_singleton.mpr rfl)), ?_⟩
            exact hePhase_mono rest (deregConn st s) s
              (by simp [deregConn, lookupA_eraseA])
              (by simp [deregConn, lookupA_eraseA])
              hsl
          · obtain ⟨h1, h2, h3, h4⟩ := hrest s hs' hsl
            exact ⟨List.mem_append.mpr (Or.inr h1), h2, h3, h4⟩

theorem trPhase (inp : IterInput) (tr : List Nat) : ∀ (st : MState) (s : Nat),
    s ∉ st.listenS → lookupA st.s2r s = none → lookupA st.s2w s = none →
    (∀ l, ¬ inp.acceptSock l = s) →
    (∀ d, REvent.recvCall s ∉ (foldIter (procTr inp) st tr).evs ∧
      REvent.feedCall s d ∉ (foldIter (procTr inp) st tr).evs ∧
      REvent.sendCall s d ∉ (foldIter (procTr inp) st tr).evs) ∧
    lookupA (foldIter (procTr inp) st tr).st.s2r s = none ∧
    lookupA (foldIter (procTr inp) st tr).st.s2w s = none ∧
    s ∉ (foldIter (procTr inp) st tr).st.listenS := by
  induction tr with
  | nil =>
    intro st s h1 h2 h3 _
    exact ⟨fun d => by simp [foldIter], h2, h3, h1⟩
  | cons x rest ih =>
    intro st s h1 h2 h3 hacc
    by_cases hl : x ∈ st.listenS
    · have hproc : procTr inp st x =
          ⟨registerConn st (inp.acceptSock x) (inp.acceptSock x),
            [REvent.acceptConn x (inp.acceptSock x)], false⟩ := by
        simp [procTr, hl]
      have hfold : foldIter (procTr inp) st (x :: rest) =
          ⟨(foldIter (procTr inp) (registerConn st (inp.acceptSock x) (inp.acceptSock x))
              rest).st,
            [REvent.acceptConn x (inp.acceptSock x)]
              ++ (foldIter (procTr inp)
                    (registerConn st (inp.acceptSock x) (inp.acceptSock x)) rest).evs,
            (foldIter (procTr inp) (registerConn st (inp.acceptSock x) (inp.acceptSock x))
              rest).crashed⟩ := by
        simp [foldIter, hproc]
      rw [hfold]
      have h2' : lookupA (registerConn st (inp.acceptSock x) (inp.acceptSock x)).s2r s
          = none := by
        simp only [registerConn]
        rw [lookupA_insertA_ne _ _ _ _ (hacc x)]
        exact h2
      have h3' : lookupA (registerConn st (inp.acceptSock x) (inp.acceptSock x)).s2w s
          = none := by
        simp only [registerConn]
        rw [lookupA_insertA_ne _ _ _ _ (hacc x)]
        exact h3
      obtain ⟨hev, hr2, hr3, hr1⟩ :=
        ih (registerConn st (inp.acceptSock x) (inp.acceptSock x)) s h1 h2' h3' hacc
      refine ⟨?_, hr2, hr3, hr1⟩
      intro d
      obtain ⟨e1, e2, e3⟩ := hev d
      refine ⟨?_, ?_, ?_⟩ <;> intro hmem <;> rcases List.mem_append.mp hmem with hm | hm
      · simp at hm
      · exact e1 hm
      · simp at hm
      · exact e2 hm
      · simp at hm
      · exact e3 hm
    · cases hsome : lookupA st.s2r x with
      | none =>
        have hfold : foldIter (procTr inp) st (x :: rest) = ⟨st, [], true⟩ := by
          simp [foldIter, procTr, hl, hsome]
        rw [hfold]
        exact ⟨fun d => by simp, h2, h3, h1⟩
      | some pid =>
        have hsx : ¬ s = x := by
          rintro rfl
          rw [h2] at hsome
          cases hsome
        cases hrecv : inp.recvData x with
        | none =>
          have hfold : foldIter (procTr inp) st (x :: rest)
              = ⟨st, [REvent.recvCall x], true⟩ := by
            simp [foldIter, procTr, hl, hsome, hrecv]
          rw [hfold]
          exact ⟨fun d => by simp [hsx], h2, h3, h1⟩
        | some dat =>
          cases dat with
          | nil =>
            have hproc : procTr inp st x =
                ⟨deregConn st x, [REvent.recvCall x, REvent.onCloseEof x], false⟩ := by
              simp [procTr, hl, hsome, hrecv]
            have hfold : foldIter (procTr inp) st (x :: rest) =
                ⟨(foldIter (procTr inp) (deregConn st x) rest).st,
                  [REvent.recvCall x, REvent.onCloseEof x]
                    ++ (foldIter (procTr inp) (deregConn st x) rest).evs,
                  (foldIter (procTr inp) (deregConn st x) rest).crashed⟩ := by
              simp [foldIter, hproc]
            rw [hfold]
            have h2' : lookupA (deregConn st x).s2r s = none := by
              simp only [deregConn, lookupA_eraseA]
              split
              · rfl
              · exact h2
            have h3' : lookupA (deregConn st x).s2w s = none := by
              simp only [deregConn, lookupA_eraseA]
              split
              · rfl
              · exact h3
            obtain ⟨hev, hr2, hr3, hr1⟩ := ih (deregConn st x) s h1 h2' h3' hacc
            refine ⟨?_, hr2, hr3, hr1⟩
            intro d
            obtain ⟨e1, e2, e3⟩ := hev d
            refine ⟨?_, ?_, ?_⟩ <;> intro hmem <;>
              rcases List.mem_append.mp hmem with hm | hm
            · simp [hsx] at hm
            · exact e1 hm
            · simp [hsx] at hm
            · exact e2 hm
            · simp [hsx] at hm
            · exact e3 hm
          | cons d0 ds =>
            by_cases hfok : inp.feedOk x
            · have hproc : procTr inp st x =
                  ⟨st, [REvent.recvCall x, REvent.feedCall x (d0 :: ds)], false⟩ := by
                simp [procTr, hl, hsome, hrecv, hfok]
              have hfold : foldIter (procTr inp) st (x :: rest) =
                  ⟨(foldIter (procTr inp) st rest).st,
                    [REvent.recvCall x, REvent.feedCall x (d0 :: ds)]
                      ++ (foldIter (procTr inp) st rest).evs,
                    (foldIter (procTr inp) st rest).crashed⟩ := by
                simp [foldIter, hproc]
              rw [hfold]
              obtain ⟨hev, hr2, hr3, hr1⟩ := ih st s h1 h2 h3 hacc
              refine ⟨?_, hr2, hr3, hr1⟩
              intro d
              obtain ⟨e1, e2, e3⟩ := hev d
              refine ⟨?_, ?_, ?_⟩ <;> intro hmem <;>
                rcases List.mem_append.mp hmem with hm | hm
              · simp [hsx] at hm
              · exact e1 hm
              · simp [hsx] at hm
              · exact e2 hm
              · simp [hsx] at hm
              · exact e3 hm
            · have hfold : foldIter (procTr inp) st (x :: rest)
                  = ⟨st, [REvent.recvCall x], true⟩ := by
                simp [foldIter, procTr, hl, hsome, hrecv, hfok]
              rw [hfold]
              exact ⟨fun d => by simp [hsx], h2, h3, h1⟩

theorem twPhase (tw : List Nat) : ∀ (st : MState) (s : Nat),
    lookupA st.s2w s = none →
    ∀ d, REvent.recvCall s ∉ (foldIter procTw st tw).evs ∧
      REvent.feedCall s d ∉ (foldIter procTw st tw).evs ∧
      REvent.sendCall s d ∉ (foldIter procTw st tw).evs := by
  induction tw with
  | nil => intro st s _ d; simp [foldIter]
  | cons x rest ih =>
    intro st s h3 d
    cases hsome : lookupA st.s2w x with
    | none =>
      have hfold : foldIter procTw st (x :: rest) = ⟨st, [], true⟩ := by
        simp [foldIter, procTw, hsome]
      rw [hfold]
      simp
    | some buff =>
      have hsx : ¬ s = x := by
        rintro rfl
        rw [h3] at hsome
        cases hsome
      cases buff with
      | nil =>
        have hfold : foldIter procTw st (x :: rest) =
            ⟨(foldIter procTw st rest).st, [] ++ (foldIter procTw st rest).evs,
              (foldIter procTw st rest).crashed⟩ := by
          simp [foldIter, procTw, hsome]
        rw [hfold]
        obtain ⟨e1, e2, e3⟩ := ih st s h3 d
        exact ⟨by simpa using e1, by simpa using e2, by simpa using e3⟩
      | cons b bs =>
        have hproc : procTw st x =
            ⟨{ st with s2w := insertA st.s2w x (writeSplit (b :: bs)).2 },
              [REvent.sendCall x (writeSplit (b :: bs)).1], false⟩ := by
          simp [procTw, hsome]
        have hfold : foldIter procTw st (x :: rest) =
            ⟨(foldIter procTw { st with s2w := insertA st.s2w x (writeSplit (b :: bs)).2 }
                rest).st,
              [REvent.sendCall x (writeSplit (b :: bs)).1]
                ++ (foldIter procTw
                      { st with s2w := insertA st.s2w x (writeSplit (b :: bs)).2 }
                      rest).evs,
              (foldIter procTw { st with s2w := insertA st.s2w x (writeSplit (b :: bs)).2 }
                rest).crashed⟩ := by
          simp [foldIter, hproc]
        rw [hfold]
        have h3' : lookupA (insertA st.s2w x (writeSplit (b :: bs)).2) s = none := by
          rw [lookupA_insertA_ne _ _ _ _ (fun h => hsx h.symm)]
          exact h3
        obtain ⟨e1, e2, e3⟩ :=
          ih { st with s2w := insertA st.s2w x (writeSplit (b :: bs)).2 } s h3' d
        refine ⟨?_, ?_, ?_⟩ <;> intro hmem <;> rcases List.mem_append.mp hmem with hm | hm
        · simp [hsx] at hm
        · exact e1 hm
        · simp [hsx] at hm
        · exact e2 hm
        · simp [hsx] at hm
        · exact e3 hm

/-- C3 (amended): in every reactor iteration whose error set names registered
sockets (as `select` guarantees) and whose accepted sockets are fresh, every
socket reported with an error condition has `on_close(True)` invoked and is
deregistered during the error pass, which precedes the whole read and write
passes: the iteration's event trace splits into an error-pass prefix
containing only close events (including this socket's `on_close(True)`)
followed by a suffix containing no read, feed or send event for that socket.
(The original claim's second half — that a fault in one connection's handling
never affects other connections or the loop — is false: see the
counterexample.) -/
theorem c3_error_phase_first (inp : IterInput) (st : MState)
    (hreg : ∀ s ∈ inp.he, s ∈ st.listenS ∨ ¬ lookupA st.s2r s = none)
    (hnd : inp.he.Nodup)
    (hacc : ∀ l s, s ∈ inp.he → ¬ inp.acceptSock l = s) :
    ∃ eh et, (runIteration inp st).evs = eh ++ et ∧
      (∀ e ∈ eh, (∃ s, e = REvent.closeListener s) ∨ (∃ s, e = REvent.onCloseErr s)) ∧
      ∀ s ∈ inp.he, s ∉ st.listenS →
        REvent.onCloseErr s ∈ eh ∧
        ∀ d, REvent.recvCall s ∉ et ∧ REvent.feedCall s d ∉ et ∧
          REvent.sendCall s d ∉ et := by
  obtain ⟨hcr, hsh, hrest⟩ := hePhase inp.he st hreg hnd
  by_cases h2c : (foldIter (procTr inp) (foldIter procHe st inp.he).st inp.tr).crashed = true
  · refine ⟨(foldIter procHe st inp.he).evs,
      (foldIter (procTr inp) (foldIter procHe st inp.he).st inp.tr).evs, ?_, hsh, ?_⟩
    · simp [runIteration, hcr, h2c]
    · intro s hs hsl
      obtain ⟨h1, ha, hb, hc⟩ := hrest s hs hsl
      obtain ⟨hev, _, _, _⟩ :=
        trPhase inp inp.tr (foldIter procHe st inp.he).st s hc ha hb
          (fun l => hacc l s hs)
      exact ⟨h1, hev⟩
  · refine ⟨(foldIter procHe st inp.he).evs,
      (foldIter (procTr inp) (foldIter procHe st inp.he).st inp.tr).evs
        ++ (foldIter procTw
              (foldIter (procTr inp) (foldIter procHe st inp.he).st inp.tr).st
              inp.tw).evs, ?_, hsh, ?_⟩
    · simp [runIteration, hcr, h2c]
    · intro s hs hsl
      obtain ⟨h1, ha, hb, hc⟩ := hrest s hs hsl
      obtain ⟨hev, ha', hb', hc'⟩ :=
        trPhase inp inp.tr (foldIter procHe st inp.he).st s hc ha hb
          (fun l => hacc l s hs)
      have hev3 := twPhase inp.tw
        (foldIter (procTr inp) (foldIter procHe st inp.he).st inp.tr).st s hb'
      refine ⟨h1, fun d => ?_⟩
      obtain ⟨e1, e2, e3⟩ := hev d
      obtain ⟨f1, f2, f3⟩ := hev3 d
      refine ⟨?_, ?_, ?_⟩ <;> intro hmem <;> rcases List.mem_append.mp hmem with hm | hm
      · exact e1 hm
      · exact f1 hm
      · exact e2 hm
      · exact f2 hm
      · exact e3 hm
      · exact f3 hm

/-- C3 witness: one listener-free state with an errored connection 1 and a
readable connection 2. -/
theorem c3_error_phase_first_witness :
    ∃ eh et,
      (runIteration ⟨[1], [2], [], fun _ => some [7], fun _ => true, fun l => l + 100⟩
          ⟨[], [(1, 11), (2, 12)], [(1, []), (2, [])]⟩).evs = eh ++ et ∧
      (∀ e ∈ eh, (∃ s, e = REvent.closeListener s) ∨ (∃ s, e = REvent.onCloseErr s)) ∧
      ∀ s ∈ [1], s ∉ ([] : List Nat) →
        REvent.onCloseErr s ∈ eh ∧
        ∀ d, REvent.recvCall s ∉ et ∧ REvent.feedCall s d ∉ et ∧
          REvent.sendCall s d ∉ et :=
  c3_error_phase_first ⟨[1], [2], [], fun _ => some [7], fun _ => true, fun l => l + 100⟩
    ⟨[], [(1, 11), (2, 12)], [(1, []), (2, [])]⟩
    (by intro s hs; simp at hs; subst hs; right; decide)
    (by decide)
    (by intro l s hs; simp at hs; subst hs; show ¬ l + 100 = 1; omega)

/-- C3 counterexample (fault isolation): with connections 1 and 2 both
readable and holding data, an uncaught exception from connection 1's `feed`
aborts the iteration — the loop crashes and connection 2's data is never fed,
refuting the claim that a fault in one connection never affects any other
connection or the loop. -/
theorem c3_fault_not_isolated :
    (runIteration ⟨[], [1, 2], [], fun _ => some [7], fun s => s != 1, fun l => l + 100⟩
        ⟨[], [(1, 11), (2, 12)], [(1, []), (2, [])]⟩).crashed = true ∧
    REvent.feedCall 2 [7] ∉
      (runIteration ⟨[], [1, 2], [], fun _ => some [7], fun s => s != 1, fun l => l + 100⟩
          ⟨[], [(1, 11), (2, 12)], [(1, []), (2, [])]⟩).evs := by
  constructor
  · decide
  · decide

/-- C7: `listen(host, 0, proto)` returns the actually assigned port
(`getsockname()[1]`, com.py line 165); `connect` performs the blocking
transport-level connect first and returns last, with the handler's `setup`
strictly between them — so `setup` runs before `connect` returns — and on
success registers the connection and returns the protocol instance; a failed
transport connect raises to the caller with no setup and no registration. -/
theorem c7_listen_connect (st : MState) (ls s pid osAssigned : Nat) :
    (listenModel st ls 0 osAssigned).2 = osAssigned ∧
    connectModel st s pid true = Except.ok (registerConn st s pid, pid) ∧
    (connectTrace true).indexOf ConnEvent.tConnect
      < (connectTrace true).indexOf ConnEvent.hSetup ∧
    (connectTrace true).indexOf ConnEvent.hSetup
      < (connectTrace true).indexOf ConnEvent.cReturn ∧
    connectModel st s pid false = Except.error () ∧
    ConnEvent.hSetup ∉ connectTrace false :=
  ⟨rfl, rfl, by decide, by decide, rfl, by decide⟩

/-- C6: for a non-empty payload whose first byte is none of the three message
kinds the server handler's only action is to close the connection; a KEYBOARD
payload whose action byte is neither PRESS nor RELEASE likewise only closes;
and the close is per-connection: a successful `manager.close` removes exactly
one socket — one that is mapped to that protocol — from the registries and
touches nothing else (in particular it never stops the manager). -/
theorem c6_protocol_violation_closes (w : WireConsts) (idb action : Nat)
    (rest key : List Nat)
    (h1 : ¬ idb = w.idPing) (h2 : ¬ idb = w.idKeyboard) (h3 : ¬ idb = w.idMouse)
    (h4 : ¬ action = w.actPress) (h5 : ¬ action = w.actRelease)
    (h6 : ¬ w.idKeyboard = w.idPing) :
    serverGotMessage w (idb :: rest) = some [SAction.closeConn] ∧
    serverGotMessage w (w.idKeyboard :: action :: key) = some [SAction.closeConn] ∧
    (∀ (st : MState) (p : Nat) (st' : MState), mClose st p = Except.ok st' →
      st'.listenS = st.listenS ∧ ∃ s0, (s0, p) ∈ st.s2r ∧ st' = deregConn st s0) := by
  refine ⟨?_, ?_, ?_⟩
  · simp [serverGotMessage, h1, h2, h3]
  · simp [serverGotMessage, h6, h4, h5]
  · intro st p st' heq
    simp only [mClose] at heq
    cases hf : st.s2r.find? (fun e => e.2 == p) with
    | none => rw [hf] at heq; cases heq
    | some e =>
      rw [hf] at heq
      cases heq
      have hmem := List.mem_of_find?_eq_some hf
      have hp : e.2 = p := by
        have := List.find?_some hf
        simpa using this
      refine ⟨rfl, e.1, ?_, rfl⟩
      rw [← hp]
      exact hmem

/-- C6 witness: with kind bytes 0, 1, 2 and action bytes 10, 11, the unknown
kind 9 and the KEYBOARD action 7 each yield exactly a close. -/
theorem c6_protocol_violation_closes_witness :
    serverGotMessage ⟨0, 1, 2, 10, 11⟩ [9] = some [SAction.closeConn] ∧
    serverGotMessage ⟨0, 1, 2, 10, 11⟩ [1, 7, 97] = some [SAction.closeConn] ∧
    (∀ (st : MState) (p : Nat) (st' : MState), mClose st p = Except.ok st' →
      st'.listenS = st.listenS ∧ ∃ s0, (s0, p) ∈ st.s2r ∧ st' = deregConn st s0) :=
  c6_protocol_violation_closes ⟨0, 1, 2, 10, 11⟩ 9 7 [] [97] (by decide) (by decide)
    (by decide) (by decide) (by decide) (by decide)

/-! ### Discovery lemmas (C8, C10) -/

theorem isPrefixOf_append (l r : List Char) : l.isPrefixOf (l ++ r) = true := by
  induction l with
  | nil => simp [List.isPrefixOf]
  | cons c cs ih => simp [List.isPrefixOf, ih]

theorem replaceFirst_strip : ∀ (pat rest : List Char), pat ≠ [] →
    replaceFirst pat [] (pat ++ rest) = rest := by
  intro pat rest hne
  cases pat with
  | nil => exact absurd rfl hne
  | cons q qs =>
    simp only [List.cons_append, replaceFirst, List.append_eq]
    rw [show (q :: (qs ++ rest)) = (q :: qs) ++ rest from rfl,
      if_pos (isPrefixOf_append (q :: qs) rest), List.drop_left, List.nil_append]

theorem splitBar_ne_nil : ∀ (l : List Char), splitBar l ≠ [] := by
  intro l
  cases l with
  | nil => simp [splitBar]
  | cons c rest =>
    simp only [splitBar]
    split
    · simp
    · split
      · simp
      · simp

theorem splitBar_no_bar_append : ∀ (h rest : List Char), '|' ∉ h →
    splitBar (h ++ '|' :: rest) = h :: splitBar rest := by
  intro h
  induction h with
  | nil =>
    intro rest _
    simp [splitBar]
  | cons c cs ih =>
    intro rest hh
    have hc : ¬ c = '|' := fun e => hh (e ▸ List.mem_cons_self c cs)
    have hcs : '|' ∉ cs := fun m => hh (List.mem_cons_of_mem _ m)
    simp only [List.cons_append, splitBar, if_neg hc, List.append_eq]
    rw [ih rest hcs]

theorem parseAdv_ip : ∀ (data srcIp : List Char) (a : Adv),
    parseAdv data srcIp = some a → a.ip = srcIp := by
  intro data srcIp a h
  simp only [parseAdv] at h
  split at h
  · cases h
  · split at h
    · split at h
      · cases h
      · cases h
        rfl
    · cases h

theorem mkAdvert_eq (h t p : List Char) :
    mkAdvert h t p = (bid ++ ['|']) ++ (h ++ '|' :: (t ++ '|' :: p)) := by
  simp [mkAdvert, List.append_assoc]

theorem parseAdv_ip_field_ignored (h t1 t2 p src : List Char)
    (hh : '|' ∉ h) (h1 : '|' ∉ t1) (h2 : '|' ∉ t2) :
    parseAdv (mkAdvert h t1 p) src = parseAdv (mkAdvert h t2 p) src := by
  have e1 : replaceFirst (bid ++ ['|']) [] (mkAdvert h t1 p)
      = h ++ '|' :: (t1 ++ '|' :: p) := by
    rw [mkAdvert_eq]
    exact replaceFirst_strip _ _ (by simp [bid])
  have e2 : replaceFirst (bid ++ ['|']) [] (mkAdvert h t2 p)
      = h ++ '|' :: (t2 ++ '|' :: p) := by
    rw [mkAdvert_eq]
    exact replaceFirst_strip _ _ (by simp [bid])
  unfold parseAdv
  rw [e1, e2, splitBar_no_bar_append h _ hh, splitBar_no_bar_append h _ hh,
    splitBar_no_bar_append t1 _ h1, splitBar_no_bar_append t2 _ h2]
  cases hsp : splitBar p with
  | nil => exact absurd hsp (splitBar_ne_nil p)
  | cons q qs => rfl

theorem discoverLoop_ok : ∀ (ds : List (List Char × List Char)) (found : List Adv),
    (∀ d ∈ ds, bid.isPrefixOf d.1 = true → (parseAdv d.1 d.2).isSome = true) →
    found.Nodup →
    ∃ L, discoverLoop found ds = some L ∧ L.Nodup ∧
      (∀ a, a ∈ L ↔ a ∈ found ∨
        ∃ d ∈ ds, bid.isPrefixOf d.1 = true ∧ parseAdv d.1 d.2 = some a) := by
  intro ds
  induction ds with
  | nil =>
    intro found _ hnd
    exact ⟨found, rfl, hnd, by simp⟩
  | cons d rest ih =>
    intro found hgood hnd
    obtain ⟨data, srcIp⟩ := d
    by_cases hpre : bid.isPrefixOf data = true
    · have hs := hgood (data, srcIp) (List.mem_cons_self _ _) hpre
      cases hparse : parseAdv data srcIp with
      | none => rw [hparse] at hs; cases hs
      | some a0 =>
        have hstep : discoverLoop found ((data, srcIp) :: rest)
            = discoverLoop (if a0 ∈ found then found else found ++ [a0]) rest := by
          simp [discoverLoop, processDatagram, hpre, hparse]
        have hnd' : (if a0 ∈ found then found else found ++ [a0]).Nodup := by
          by_cases hm : a0 ∈ found
          · simpa [hm] using hnd
          · simp [hm, List.nodup_append, hnd]
        have hgood' : ∀ d ∈ rest, bid.isPrefixOf d.1 = true →
            (parseAdv d.1 d.2).isSome = true :=
          fun d hd => hgood d (List.mem_cons_of_mem _ hd)
        obtain ⟨L, hL, hLnd, hLmem⟩ := ih _ hgood' hnd'
        refine ⟨L, by rw [hstep]; exact hL, hLnd, ?_⟩
        intro a
        rw [hLmem a]
        have hmem' : a ∈ (if a0 ∈ found then found else found ++ [a0])
            ↔ a ∈ found ∨ a = a0 := by
          by_cases hm : a0 ∈ found
          · simp only [hm, if_true]
            constructor
            · exact Or.inl
            · rintro (h | rfl)
              · exact h
              · exact hm
          · simp [hm, List.mem_append]
        rw [hmem']
        constructor
        · rintro ((h | rfl) | ⟨d', hd', hx1, hx2⟩)
          · exact Or.inl h
          · exact Or.inr ⟨(data, srcIp), List.mem_cons_self _ _, hpre, hparse⟩
          · exact Or.inr ⟨d', List.mem_cons_of_mem _ hd', hx1, hx2⟩
        · rintro (h | ⟨d', hd', hx1, hx2⟩)
          · exact Or.inl (Or.inl h)
          · rcases List.mem_cons.mp hd' with rfl | hd''
            · rw [hparse] at hx2
              cases hx2
              exact Or.inl (Or.inr rfl)
            · exact Or.inr ⟨d', hd'', hx1, hx2⟩
    · have hstep : discoverLoop found ((data, srcIp) :: rest)
          = discoverLoop found rest := by
        simp [discoverLoop, processDatagram, hpre]
      have hgood' : ∀ d ∈ rest, bid.isPrefixOf d.1 = true →
          (parseAdv d.1 d.2).isSome = true :=
        fun d hd => hgood d (List.mem_cons_of_mem _ hd)
      obtain ⟨L, hL, hLnd, hLmem⟩ := ih found hgood' hnd
      refine ⟨L, by rw [hstep]; exact hL, hLnd, ?_⟩
      intro a
      rw [hLmem a]
      constructor
      · rintro (h | ⟨d', hd', hx1, hx2⟩)
        · exact Or.inl h
        · exact Or.inr ⟨d', List.mem_cons_of_mem _ hd', hx1, hx2⟩
      · rintro (h | ⟨d', hd', hx1, hx2⟩)
        · exact Or.inl h
        · rcases List.mem_cons.mp hd' with rfl | hd''
          · exact absurd hx1 hpre
          · exact Or.inr ⟨d', hd'', hx1, hx2⟩

theorem discoverLoop_ip : ∀ (ds : List (List Char × List Char)) (found L : List Adv),
    discoverLoop found ds = some L →
    ∀ a ∈ L, a ∈ found ∨ ∃ d ∈ ds, a.ip = d.2 := by
  intro ds
  induction ds with
  | nil =>
    intro found L hL a ha
    cases hL
    exact Or.inl ha
  | cons d rest ih =>
    intro found L hL a ha
    obtain ⟨data, srcIp⟩ := d
    by_cases hpre : bid.isPrefixOf data = true
    · cases hparse : parseAdv data srcIp with
      | none =>
        rw [show discoverLoop found ((data, srcIp) :: rest) = none from by
          simp [discoverLoop, processDatagram, hpre, hparse]] at hL
        cases hL
      | some a0 =>
        rw [show discoverLoop found ((data, srcIp) :: rest)
            = discoverLoop (if a0 ∈ found then found else found ++ [a0]) rest from by
          simp [discoverLoop, processDatagram, hpre, hparse]] at hL
        rcases ih _ L hL a ha with hmem | ⟨d', hd', hip⟩
        · by_cases hm : a0 ∈ found
          · rw [if_pos hm] at hmem
            exact Or.inl hmem
          · rw [if_neg hm] at hmem
            rcases List.mem_append.mp hmem with hmem | hmem
            · exact Or.inl hmem
            · rcases List.mem_singleton.mp hmem with rfl
              exact Or.inr ⟨(data, srcIp), List.mem_cons_self _ _,
                parseAdv_ip data srcIp a hparse⟩
        · exact Or.inr ⟨d', List.mem_cons_of_mem _ hd', hip⟩
    · rw [show discoverLoop found ((data, srcIp) :: rest) = discoverLoop found rest from by
        simp [discoverLoop, processDatagram, hpre]] at hL
      rcases ih found L hL a ha with hmem | ⟨d', hd', hip⟩
      · exact Or.inl hmem
      · exact Or.inr ⟨d', List.mem_cons_of_mem _ hd', hip⟩

/-- C8 (amended): over any sequence of datagrams in the discovery window in
which every validly-prefixed datagram is well-formed, `discover` returns a
duplicate-free list containing exactly the advertisements parsed from the
validly-prefixed datagrams — each distinct tuple exactly once no matter how
often it was received — while traffic without the identifier is silently
skipped.  (The original claim also promised that malformed validly-prefixed
traffic is silently ignored; in fact it raises and aborts `discover`: see the
counterexample.) -/
theorem c8_discover_dedup (ds : List (List Char × List Char))
    (hgood : ∀ d ∈ ds, bid.isPrefixOf d.1 = true → (parseAdv d.1 d.2).isSome = true) :
    ∃ L, discoverLoop [] ds = some L ∧ L.Nodup ∧
      (∀ a, a ∈ L ↔ ∃ d ∈ ds, bid.isPrefixOf d.1 = true ∧ parseAdv d.1 d.2 = some a) := by
  obtain ⟨L, hL, hnd, hmem⟩ := discoverLoop_ok ds [] hgood List.nodup_nil
  refine ⟨L, hL, hnd, fun a => ?_⟩
  rw [hmem a]
  simp

/-- C8 witness: the spec's example — the advertisement broadcast once per
second and received three times in a three-second window. -/
theorem c8_discover_dedup_witness :
    ∃ L, discoverLoop [] sampleDs = some L ∧ L.Nodup ∧
      (∀ a, a ∈ L ↔ ∃ d ∈ sampleDs,
        bid.isPrefixOf d.1 = true ∧ parseAdv d.1 d.2 = some a) :=
  c8_discover_dedup sampleDs (by decide)

/-- C8 counterexample: a validly-prefixed but malformed datagram (identifier
plus a single field, so `tdata[1] = ip` on com.py line 43 raises
`IndexError`) is not silently ignored: it aborts `discover` instead of
returning the accumulated set. -/
theorem c8_malformed_crashes :
    bid.isPrefixOf ("HIDrem0:1|aG9zdA==").data = true ∧
    discoverLoop [] [(("HIDrem0:1|aG9zdA==").data, ("10.0.0.8").data)] = none := by
  constructor
  · decide
  · decide

/-- C10: every tuple returned by `discover` takes its ip field from the UDP
datagram's source address as reported by `recvfrom` (com.py lines 36 and 43),
and the advertised ip text between the second and third delimiter is never
inspected: two datagrams differing only in that field are processed
identically. -/
theorem c10_ip_from_source :
    (∀ (ds : List (List Char × List Char)) (L : List Adv),
      discoverLoop [] ds = some L → ∀ a ∈ L, ∃ d ∈ ds, a.ip = d.2) ∧
    (∀ (found : List Adv) (h t1 t2 p src : List Char),
      '|' ∉ h → '|' ∉ t1 → '|' ∉ t2 →
      processDatagram found (mkAdvert h t1 p) src
        = processDatagram found (mkAdvert h t2 p) src) := by
  constructor
  · intro ds L hL a ha
    rcases discoverLoop_ip ds [] L hL a ha with hmem | hex
    · cases hmem
    · exact hex
  · intro found h t1 t2 p src hh h1 h2
    have hp1 : bid.isPrefixOf (mkAdvert h t1 p) = true := by
      rw [mkAdvert]
      exact isPrefixOf_append bid _
    have hp2 : bid.isPrefixOf (mkAdvert h t2 p) = true := by
      rw [mkAdvert]
      exact isPrefixOf_append bid _
    simp only [processDatagram, hp1, hp2, if_true]
    rw [parseAdv_ip_field_ignored h t1 t2 p src hh h1 h2]

/-- C10 witness: a concrete datagram pair differing only in the advertised ip
text, and the sample run whose single tuple carries the source address. -/
theorem c10_ip_from_source_witness :
    (∀ a ∈ ([⟨("host").data, ("192.0.2.5").data, 5026, []⟩] : List Adv),
      ∃ d ∈ sampleDs, a.ip = d.2) ∧
    processDatagram [] (mkAdvert ("aG9zdA==").data ("1.2.3.4").data ("5026").data)
        ("9.9.9.9").data
      = processDatagram [] (mkAdvert ("aG9zdA==").data ("5.6.7.8").data ("5026").data)
        ("9.9.9.9").data :=
  ⟨c10_ip_from_source.1 sampleDs _ (by decide),
    c10_ip_from_source.2 [] ("aG9zdA==").data ("1.2.3.4").data ("5.6.7.8").data
      ("5026").data ("9.9.9.9").data (by decide) (by decide) (by decide)⟩

end HIDrem
